import Mathlib

/-!
Shallow embedding of the behavior-tree engine (composite pattern example):
the node base class `IBehaviorTreeNode`, its two composite subclasses
`Sequence` and `Fallback`, the five example leaf subclasses
(`Esto`, `Aquello`, `Uno`, `Dos`, `Tres`), and the owning `BehaviorTree`.

Nodes live in an arena (the Tree's `m_nodes` storage, a list); raw node
pointers (`t_nodeRawPtr`) are modelled as indices into that list, the null
pointer as `none`.  The virtual `update(float dt)` dispatch is modelled by a
`cls` tag on each node recording its concrete class.  Because the C++
`update` is a non-const member acting on nodes reachable through pointers,
the embedded `update` threads the whole node store through the recursion and
returns the post-state, so that "evaluation does not mutate the tree" is a
provable theorem rather than an artifact of the embedding.  `update` also
returns the trace of node indices in order of invocation (the source prints
a line at the top of every `update` body), making invocation order
observable.  Recursion over pointer children is not structurally decreasing
(the engine does not prevent cyclic wiring), so `update` takes fuel and
returns `none` when the fuel runs out or an invalid index is dereferenced.
-/

/-- Node status enumeration (`e_status`): SUCCESS, FAILURE and the
UNKNOWN = -1 sentinel.  The commented-out RUNNING state is not part of the
source. -/
inductive e_status
  | SUCCESS
  | FAILURE
  | UNKNOWN
deriving DecidableEq, Repr

/-- Node type enumeration (`e_nodeType`): control nodes SEQUENCE and
FALLBACK, execution nodes ACTION and CONDITION. -/
inductive e_nodeType
  | SEQUENCE
  | FALLBACK
  | ACTION
  | CONDITION
deriving DecidableEq, Repr

/-- The concrete (dynamic) class of a node: the two composite classes and
the five example leaf classes defined in the source.  This tag selects
which `update` override runs. -/
inductive NodeClass
  | Fallback
  | Sequence
  | Esto
  | Aquello
  | Uno
  | Dos
  | Tres
deriving DecidableEq, Repr

/-- The node type passed to the `IBehaviorTreeNode` base constructor by each
concrete class constructor: `Fallback()` passes FALLBACK, `Sequence()`
passes SEQUENCE, and each of the five example leaves passes ACTION. -/
def classNodeType : NodeClass → e_nodeType
  | NodeClass.Fallback => e_nodeType.FALLBACK
  | NodeClass.Sequence => e_nodeType.SEQUENCE
  | NodeClass.Esto => e_nodeType.ACTION
  | NodeClass.Aquello => e_nodeType.ACTION
  | NodeClass.Uno => e_nodeType.ACTION
  | NodeClass.Dos => e_nodeType.ACTION
  | NodeClass.Tres => e_nodeType.ACTION

/-- State of an `IBehaviorTreeNode` object: node type `m_type`, parent
pointer `m_parent` (an index, `none` for nullptr), children pointers
`m_children`, plus the dynamic class tag. -/
structure IBehaviorTreeNode where
  m_type : e_nodeType
  m_parent : Option Nat
  m_children : List Nat
  cls : NodeClass
deriving DecidableEq, Repr

/-- Constructing a node of class `c`: the derived constructor calls the
`IBehaviorTreeNode(e_nodeType type)` base constructor, which sets `m_type`
to the given type and `m_parent` to nullptr, leaving `m_children` empty. -/
def mkNode (c : NodeClass) : IBehaviorTreeNode :=
  { m_type := classNodeType c, m_parent := none, m_children := [], cls := c }

/-- Getter `getNodeType()`. -/
def IBehaviorTreeNode.getNodeType (n : IBehaviorTreeNode) : e_nodeType :=
  n.m_type

/-- Getter `getParent()`. -/
def IBehaviorTreeNode.getParent (n : IBehaviorTreeNode) : Option Nat :=
  n.m_parent

/-- Getter `hasChildren()`: `!m_children.empty()`. -/
def IBehaviorTreeNode.hasChildren (n : IBehaviorTreeNode) : Bool :=
  !n.m_children.isEmpty

/-- Getter `getChildren()`. -/
def IBehaviorTreeNode.getChildren (n : IBehaviorTreeNode) : List Nat :=
  n.m_children

/-- Mutator `addChildren(node)`: `m_children.push_back(node)`. -/
def IBehaviorTreeNode.addChildren (n : IBehaviorTreeNode) (c : Nat) :
    IBehaviorTreeNode :=
  { n with m_children := n.m_children ++ [c] }

/-- Result of one `update` call in the embedding: the returned `e_status`,
the trace of node indices in invocation order, and the post-state of the
node store. -/
abbrev UpdResult := e_status × List Nat × List IBehaviorTreeNode

/-- The loop body of `Fallback::update`: iterate over the children; as soon
as one child's `update` returns SUCCESS, return SUCCESS without invoking
the remaining children; after the loop, return FAILURE.  `eval` is the
(fuel-instantiated) recursive `update` call on a child; the store is
threaded through the child calls. -/
def fallbackGo (eval : List IBehaviorTreeNode → Nat → Option UpdResult) :
    List IBehaviorTreeNode → List Nat → Option UpdResult
  | store, [] => some (e_status.FAILURE, [], store)
  | store, c :: rest =>
    match eval store c with
    | none => none
    | some (st, tr, store') =>
      if st = e_status.SUCCESS then some (e_status.SUCCESS, tr, store')
      else
        match fallbackGo eval store' rest with
        | none => none
        | some (st2, tr2, store2) => some (st2, tr ++ tr2, store2)

/-- The loop body of `Sequence::update`: iterate over the children; as soon
as one child's `update` returns FAILURE, return FAILURE without invoking
the remaining children; after the loop, return SUCCESS. -/
def sequenceGo (eval : List IBehaviorTreeNode → Nat → Option UpdResult) :
    List IBehaviorTreeNode → List Nat → Option UpdResult
  | store, [] => some (e_status.SUCCESS, [], store)
  | store, c :: rest =>
    match eval store c with
    | none => none
    | some (st, tr, store') =>
      if st = e_status.FAILURE then some (e_status.FAILURE, tr, store')
      else
        match sequenceGo eval store' rest with
        | none => none
        | some (st2, tr2, store2) => some (st2, tr ++ tr2, store2)

/-- Virtual `update(float dt)` dispatched on the node's concrete class:
`Fallback::update` and `Sequence::update` run their child loop (the node's
own index is traced first, matching the `Running FALLBACK` / `Running
SEQUENCE` print at the top of each body); `Esto::update` and
`Aquello::update` print and return FAILURE; `Uno::update`, `Dos::update`
and `Tres::update` print and return SUCCESS.  `none` means the computation
is undefined in the model: out of fuel (unbounded recursion through cyclic
wiring) or a dereference of an invalid node pointer. -/
def update : Nat → List IBehaviorTreeNode → Nat → Float → Option UpdResult
  | 0, _, _, _ => none
  | Nat.succ fuel, store, id, dt =>
    match store[id]? with
    | none => none
    | some n =>
      match n.cls with
      | NodeClass.Fallback =>
        match fallbackGo (fun s c => update fuel s c dt) store n.m_children with
        | none => none
        | some (st, tr, store') => some (st, id :: tr, store')
      | NodeClass.Sequence =>
        match sequenceGo (fun s c => update fuel s c dt) store n.m_children with
        | none => none
        | some (st, tr, store') => some (st, id :: tr, store')
      | NodeClass.Esto => some (e_status.FAILURE, [id], store)
      | NodeClass.Aquello => some (e_status.FAILURE, [id], store)
      | NodeClass.Uno => some (e_status.SUCCESS, [id], store)
      | NodeClass.Dos => some (e_status.SUCCESS, [id], store)
      | NodeClass.Tres => some (e_status.SUCCESS, [id], store)

/-- State of a `BehaviorTree` object: the root pointer `m_root` (`none`
models the root-not-yet-assigned state; in the source `m_root` is a raw
pointer that no constructor initializes) and the owning node storage
`m_nodes` (a vector of unique_ptr, modelled as the arena list). -/
structure BehaviorTree where
  m_root : Option Nat
  m_nodes : List IBehaviorTreeNode
deriving DecidableEq, Repr

/-- A default-constructed `BehaviorTree bt;` — empty storage, no root
assigned. -/
def freshTree : BehaviorTree :=
  { m_root := none, m_nodes := [] }

/-- `BehaviorTree::create<NodeClass>()`: emplace a new node of the requested
class at the back of `m_nodes` and return the raw pointer to it (its
index). -/
def BehaviorTree.create (bt : BehaviorTree) (c : NodeClass) :
    BehaviorTree × Nat :=
  ({ bt with m_nodes := bt.m_nodes ++ [mkNode c] }, bt.m_nodes.length)

/-- `BehaviorTree::setRoot(node)`: record the root pointer. -/
def BehaviorTree.setRoot (bt : BehaviorTree) (r : Nat) : BehaviorTree :=
  { bt with m_root := some r }

/-- `BehaviorTree::getRoot()`. -/
def BehaviorTree.getRoot (bt : BehaviorTree) : Option Nat :=
  bt.m_root

/-- `BehaviorTree::run(float dt)`: `m_root->update(dt);` — an unconditional
dereference of `m_root` with no check.  When no root has been assigned the
source dereferences an uninitialized pointer (undefined behavior); the
model returns `none`: no status is produced and no assertion or error
report exists on this path. -/
def BehaviorTree.run (bt : BehaviorTree) (fuel : Nat) (dt : Float) :
    Option UpdResult :=
  match bt.m_root with
  | none => none
  | some r => update fuel bt.m_nodes r dt

/-- In-place mutation of the node at index `i` of the store, used to model
a member-function call through a raw node pointer into the Tree's
storage. -/
def storeModify (store : List IBehaviorTreeNode) (i : Nat)
    (f : IBehaviorTreeNode → IBehaviorTreeNode) : List IBehaviorTreeNode :=
  match store, i with
  | [], _ => []
  | n :: rest, 0 => f n :: rest
  | n :: rest, Nat.succ j => n :: storeModify rest j f

/-- `p->addChildren(c)` where `p` is a raw pointer into the tree's storage:
append `c` to the child list of the node at index `p`. -/
def addChildAt (bt : BehaviorTree) (p c : Nat) : BehaviorTree :=
  { bt with m_nodes := storeModify bt.m_nodes p (fun n => n.addChildren c) }

/-- The tree built by `main()`: create `sequence1` (index 0), `fallback1`
(index 1), `esto` (2), `aquello` (3), `uno` (4), `dos` (5), `tres` (6);
add `esto`, `aquello`, `sequence1` as children of `fallback1`; add `uno`,
`dos`, `tres` as children of `sequence1`; set `fallback1` as root. -/
def mainTree : BehaviorTree :=
  let bt := freshTree
  let (bt, sequence1) := bt.create NodeClass.Sequence
  let (bt, fallback1) := bt.create NodeClass.Fallback
  let (bt, esto) := bt.create NodeClass.Esto
  let (bt, aquello) := bt.create NodeClass.Aquello
  let (bt, uno) := bt.create NodeClass.Uno
  let (bt, dos) := bt.create NodeClass.Dos
  let (bt, tres) := bt.create NodeClass.Tres
  let bt := addChildAt bt fallback1 esto
  let bt := addChildAt bt fallback1 aquello
  let bt := addChildAt bt fallback1 sequence1
  let bt := addChildAt bt sequence1 uno
  let bt := addChildAt bt sequence1 dos
  let bt := addChildAt bt sequence1 tres
  bt.setRoot fallback1

/-- Proposition: every pointer in the list `cs`, invoked left to right by
`eval` against the store `store`, evaluates to status `want`, and `ts` is
the concatenation of the resulting invocation traces in that order. -/
inductive EvalAll (eval : List IBehaviorTreeNode → Nat → Option UpdResult)
    (store : List IBehaviorTreeNode) (want : e_status) :
    List Nat → List Nat → Prop
  | nil : EvalAll eval store want [] []
  | cons {c : Nat} {cs : List Nat} {t ts : List Nat}
      {s' : List IBehaviorTreeNode}
      (h : eval store c = some (want, t, s'))
      (rest : EvalAll eval store want cs ts) :
      EvalAll eval store want (c :: cs) (t ++ ts)


/-- Concrete store witnessing the Sequence claim: a Sequence (index 0) with
children Uno (1), Esto (2), Dos (3). -/
def seqWitnessStore : List IBehaviorTreeNode :=
  [(((mkNode NodeClass.Sequence).addChildren 1).addChildren 2).addChildren 3,
   mkNode NodeClass.Uno, mkNode NodeClass.Esto, mkNode NodeClass.Dos]

/-- Concrete store witnessing the Fallback claim: a Fallback (index 0) with
children Esto (1), Uno (2), Dos (3). -/
def fbWitnessStore : List IBehaviorTreeNode :=
  [(((mkNode NodeClass.Fallback).addChildren 1).addChildren 2).addChildren 3,
   mkNode NodeClass.Esto, mkNode NodeClass.Uno, mkNode NodeClass.Dos]

/-- Proposition: every node in the store has a null parent reference. -/
def AllParentsNone (store : List IBehaviorTreeNode) : Prop :=
  ∀ n ∈ store, n.getParent = none

/-!
Helper lemmas shared by the claim theorems.
-/

/-- An update-like child evaluator never mutates the store it is given. -/
def PreservesStore (eval : List IBehaviorTreeNode → Nat → Option UpdResult) : Prop :=
  ∀ s c st t s', eval s c = some (st, t, s') → s' = s

/-- An update-like child evaluator only ever reports SUCCESS or FAILURE. -/
def TerminalStatus (eval : List IBehaviorTreeNode → Nat → Option UpdResult) : Prop :=
  ∀ s c st t s', eval s c = some (st, t, s') →
    st = e_status.SUCCESS ∨ st = e_status.FAILURE

theorem fallbackGo_store_eq (eval : List IBehaviorTreeNode → Nat → Option UpdResult)
    (hev : PreservesStore eval) :
    ∀ (cs : List Nat) (store : List IBehaviorTreeNode) (st : e_status)
      (tr : List Nat) (store' : List IBehaviorTreeNode),
      fallbackGo eval store cs = some (st, tr, store') → store' = store := by
  intro cs
  induction cs with
  | nil =>
    intro store st tr store' h
    simp only [fallbackGo, Option.some.injEq, Prod.mk.injEq] at h
    exact h.2.2.symm
  | cons c rest ih =>
    intro store st tr store' h
    simp only [fallbackGo] at h
    split at h
    · exact Option.noConfusion h
    · rename_i st1 t1 s1 h1
      have hs1 : s1 = store := hev store c st1 t1 s1 h1
      split at h
      · simp only [Option.some.injEq, Prod.mk.injEq] at h
        obtain ⟨rfl, rfl, rfl⟩ := h
        exact hs1
      · split at h
        · exact Option.noConfusion h
        · rename_i st2 t2 s2 h2
          simp only [Option.some.injEq, Prod.mk.injEq] at h
          obtain ⟨rfl, rfl, rfl⟩ := h
          exact (ih s1 st2 t2 s2 h2).trans hs1

theorem sequenceGo_store_eq (eval : List IBehaviorTreeNode → Nat → Option UpdResult)
    (hev : PreservesStore eval) :
    ∀ (cs : List Nat) (store : List IBehaviorTreeNode) (st : e_status)
      (tr : List Nat) (store' : List IBehaviorTreeNode),
      sequenceGo eval store cs = some (st, tr, store') → store' = store := by
  intro cs
  induction cs with
  | nil =>
    intro store st tr store' h
    simp only [sequenceGo, Option.some.injEq, Prod.mk.injEq] at h
    exact h.2.2.symm
  | cons c rest ih =>
    intro store st tr store' h
    simp only [sequenceGo] at h
    split at h
    · exact Option.noConfusion h
    · rename_i st1 t1 s1 h1
      have hs1 : s1 = store := hev store c st1 t1 s1 h1
      split at h
      · simp only [Option.some.injEq, Prod.mk.injEq] at h
        obtain ⟨rfl, rfl, rfl⟩ := h
        exact hs1
      · split at h
        · exact Option.noConfusion h
        · rename_i st2 t2 s2 h2
          simp only [Option.some.injEq, Prod.mk.injEq] at h
          obtain ⟨rfl, rfl, rfl⟩ := h
          exact (ih s1 st2 t2 s2 h2).trans hs1

theorem fallbackGo_terminal (eval : List IBehaviorTreeNode → Nat → Option UpdResult) :
    ∀ (cs : List Nat) (store : List IBehaviorTreeNode) (st : e_status)
      (tr : List Nat) (store' : List IBehaviorTreeNode),
      fallbackGo eval store cs = some (st, tr, store') →
      st = e_status.SUCCESS ∨ st = e_status.FAILURE := by
  intro cs
  induction cs with
  | nil =>
    intro store st tr store' h
    simp only [fallbackGo, Option.some.injEq, Prod.mk.injEq] at h
    exact Or.inr h.1.symm
  | cons c rest ih =>
    intro store st tr store' h
    simp only [fallbackGo] at h
    split at h
    · exact Option.noConfusion h
    · rename_i st1 t1 s1 h1
      split at h
      · simp only [Option.some.injEq, Prod.mk.injEq] at h
        obtain ⟨rfl, rfl, rfl⟩ := h
        exact Or.inl rfl
      · split at h
        · exact Option.noConfusion h
        · rename_i st2 t2 s2 h2
          simp only [Option.some.injEq, Prod.mk.injEq] at h
          obtain ⟨rfl, rfl, rfl⟩ := h
          exact ih s1 st2 t2 s2 h2

theorem sequenceGo_terminal (eval : List IBehaviorTreeNode → Nat → Option UpdResult) :
    ∀ (cs : List Nat) (store : List IBehaviorTreeNode) (st : e_status)
      (tr : List Nat) (store' : List IBehaviorTreeNode),
      sequenceGo eval store cs = some (st, tr, store') →
      st = e_status.SUCCESS ∨ st = e_status.FAILURE := by
  intro cs
  induction cs with
  | nil =>
    intro store st tr store' h
    simp only [sequenceGo, Option.some.injEq, Prod.mk.injEq] at h
    exact Or.inl h.1.symm
  | cons c rest ih =>
    intro store st tr store' h
    simp only [sequenceGo] at h
    split at h
    · exact Option.noConfusion h
    · rename_i st1 t1 s1 h1
      split at h
      · simp only [Option.some.injEq, Prod.mk.injEq] at h
        obtain ⟨rfl, rfl, rfl⟩ := h
        exact Or.inr rfl
      · split at h
        · exact Option.noConfusion h
        · rename_i st2 t2 s2 h2
          simp only [Option.some.injEq, Prod.mk.injEq] at h
          obtain ⟨rfl, rfl, rfl⟩ := h
          exact ih s1 st2 t2 s2 h2

theorem update_store_eq :
    ∀ (fuel : Nat) (store : List IBehaviorTreeNode) (id : Nat) (dt : Float)
      (st : e_status) (tr : List Nat) (store' : List IBehaviorTreeNode),
      update fuel store id dt = some (st, tr, store') → store' = store := by
  intro fuel
  induction fuel with
  | zero =>
    intro store id dt st tr store' h
    exact Option.noConfusion h
  | succ fuel ih =>
    intro store id dt st tr store' h
    have hpres : PreservesStore (fun s c => update fuel s c dt) :=
      fun s c st1 t1 s1 h1 => ih s c dt st1 t1 s1 h1
    simp only [update] at h
    split at h
    · exact Option.noConfusion h
    · rename_i n hn
      split at h
      · split at h
        · exact Option.noConfusion h
        · rename_i st0 tr0 s0 hgo
          simp only [Option.some.injEq, Prod.mk.injEq] at h
          obtain ⟨rfl, rfl, rfl⟩ := h
          exact fallbackGo_store_eq _ hpres n.m_children store st0 tr0 s0 hgo
      · split at h
        · exact Option.noConfusion h
        · rename_i st0 tr0 s0 hgo
          simp only [Option.some.injEq, Prod.mk.injEq] at h
          obtain ⟨rfl, rfl, rfl⟩ := h
          exact sequenceGo_store_eq _ hpres n.m_children store st0 tr0 s0 hgo
      all_goals
        simp only [Option.some.injEq, Prod.mk.injEq] at h
      all_goals obtain ⟨rfl, rfl, rfl⟩ := h
      all_goals rfl

theorem update_terminal :
    ∀ (fuel : Nat) (store : List IBehaviorTreeNode) (id : Nat) (dt : Float)
      (st : e_status) (tr : List Nat) (store' : List IBehaviorTreeNode),
      update fuel store id dt = some (st, tr, store') →
      st = e_status.SUCCESS ∨ st = e_status.FAILURE := by
  intro fuel store id dt st tr store' h
  match fuel with
  | 0 => exact Option.noConfusion h
  | Nat.succ fuel =>
    simp only [update] at h
    split at h
    · exact Option.noConfusion h
    · rename_i n hn
      split at h
      · split at h
        · exact Option.noConfusion h
        · rename_i st0 tr0 s0 hgo
          simp only [Option.some.injEq, Prod.mk.injEq] at h
          obtain ⟨rfl, rfl, rfl⟩ := h
          exact fallbackGo_terminal _ n.m_children store st0 tr0 s0 hgo
      · split at h
        · exact Option.noConfusion h
        · rename_i st0 tr0 s0 hgo
          simp only [Option.some.injEq, Prod.mk.injEq] at h
          obtain ⟨rfl, rfl, rfl⟩ := h
          exact sequenceGo_terminal _ n.m_children store st0 tr0 s0 hgo
      all_goals
        simp only [Option.some.injEq, Prod.mk.injEq] at h
      all_goals obtain ⟨rfl, rfl, rfl⟩ := h
      · exact Or.inr rfl
      · exact Or.inr rfl
      · exact Or.inl rfl
      · exact Or.inl rfl
      · exact Or.inl rfl

theorem sequenceGo_success_iff (eval : List IBehaviorTreeNode → Nat → Option UpdResult)
    (hpres : PreservesStore eval) (hterm : TerminalStatus eval) :
    ∀ (cs : List Nat) (store : List IBehaviorTreeNode) (st : e_status)
      (tr : List Nat) (store' : List IBehaviorTreeNode),
      sequenceGo eval store cs = some (st, tr, store') →
      (st = e_status.SUCCESS ↔
        ∀ c ∈ cs, ∃ t s2, eval store c = some (e_status.SUCCESS, t, s2)) := by
  intro cs
  induction cs with
  | nil =>
    intro store st tr store' h
    simp only [sequenceGo, Option.some.injEq, Prod.mk.injEq] at h
    obtain ⟨rfl, rfl, rfl⟩ := h
    simp
  | cons c rest ih =>
    intro store st tr store' h
    simp only [sequenceGo] at h
    split at h
    · exact Option.noConfusion h
    · rename_i st1 t1 s1 h1
      have hs1 : s1 = store := hpres store c st1 t1 s1 h1
      rw [hs1] at h1 h
      split at h
      · rename_i hfail
        subst hfail
        simp only [Option.some.injEq, Prod.mk.injEq] at h
        obtain ⟨rfl, rfl, rfl⟩ := h
        constructor
        · intro h'
          exact absurd h' (by decide)
        · intro hall
          obtain ⟨t, s2, hc⟩ := hall c (List.mem_cons_self c rest)
          rw [h1] at hc
          simp at hc
      · rename_i hnfail
        have hsucc : st1 = e_status.SUCCESS := by
          rcases hterm store c st1 t1 store h1 with h' | h'
          · exact h'
          · exact absurd h' hnfail
        subst hsucc
        split at h
        · exact Option.noConfusion h
        · rename_i st2 t2 s2 h2
          simp only [Option.some.injEq, Prod.mk.injEq] at h
          obtain ⟨rfl, rfl, rfl⟩ := h
          have hiff := ih store st2 t2 s2 h2
          constructor
          · intro hst2 c' hc'
            rcases List.mem_cons.mp hc' with rfl | hmem
            · exact ⟨t1, store, h1⟩
            · exact (hiff.mp hst2) c' hmem
          · intro hall
            exact hiff.mpr (fun c' hc' => hall c' (List.mem_cons_of_mem c hc'))

theorem sequenceGo_success_trace (eval : List IBehaviorTreeNode → Nat → Option UpdResult)
    (hpres : PreservesStore eval) (hterm : TerminalStatus eval) :
    ∀ (cs : List Nat) (store : List IBehaviorTreeNode) (tr : List Nat)
      (store' : List IBehaviorTreeNode),
      sequenceGo eval store cs = some (e_status.SUCCESS, tr, store') →
      EvalAll eval store e_status.SUCCESS cs tr := by
  intro cs
  induction cs with
  | nil =>
    intro store tr store' h
    simp only [sequenceGo, Option.some.injEq, Prod.mk.injEq] at h
    obtain ⟨-, rfl, rfl⟩ := h
    exact EvalAll.nil
  | cons c rest ih =>
    intro store tr store' h
    simp only [sequenceGo] at h
    split at h
    · exact Option.noConfusion h
    · rename_i st1 t1 s1 h1
      have hs1 : s1 = store := hpres store c st1 t1 s1 h1
      rw [hs1] at h1 h
      split at h
      · simp only [Option.some.injEq, Prod.mk.injEq] at h
        exact absurd h.1 (by decide)
      · rename_i hnfail
        have hsucc : st1 = e_status.SUCCESS := by
          rcases hterm store c st1 t1 store h1 with h' | h'
          · exact h'
          · exact absurd h' hnfail
        subst hsucc
        split at h
        · exact Option.noConfusion h
        · rename_i st2 t2 s2 h2
          simp only [Option.some.injEq, Prod.mk.injEq] at h
          obtain ⟨hst2, rfl, rfl⟩ := h
          subst hst2
          exact EvalAll.cons h1 (ih store t2 s2 h2)

theorem sequenceGo_shortcircuit (eval : List IBehaviorTreeNode → Nat → Option UpdResult)
    (hpres : PreservesStore eval) :
    ∀ (cs1 : List Nat) (c : Nat) (cs2 : List Nat) (store : List IBehaviorTreeNode)
      (tc : List Nat) (s2 : List IBehaviorTreeNode),
      (∀ c' ∈ cs1, ∃ t s3, eval store c' = some (e_status.SUCCESS, t, s3)) →
      eval store c = some (e_status.FAILURE, tc, s2) →
      ∃ pre, sequenceGo eval store (cs1 ++ c :: cs2) =
          some (e_status.FAILURE, pre ++ tc, store) ∧
        EvalAll eval store e_status.SUCCESS cs1 pre := by
  intro cs1
  induction cs1 with
  | nil =>
    intro c cs2 store tc s2 _ hc
    have hs2 : s2 = store := hpres store c _ _ _ hc
    rw [hs2] at hc
    refine ⟨[], ?_, EvalAll.nil⟩
    simp [sequenceGo, hc]
  | cons c' cs1' ih =>
    intro c cs2 store tc s2 hall hc
    obtain ⟨t, s3, hc'⟩ := hall c' (List.mem_cons_self c' cs1')
    have hs3 : s3 = store := hpres store c' _ _ _ hc'
    rw [hs3] at hc'
    obtain ⟨pre, hseq, hev⟩ :=
      ih c cs2 store tc s2 (fun x hx => hall x (List.mem_cons_of_mem c' hx)) hc
    refine ⟨t ++ pre, ?_, EvalAll.cons hc' hev⟩
    rw [List.cons_append]
    simp [sequenceGo, hc', hseq]

theorem fallbackGo_failure_iff (eval : List IBehaviorTreeNode → Nat → Option UpdResult)
    (hpres : PreservesStore eval) (hterm : TerminalStatus eval) :
    ∀ (cs : List Nat) (store : List IBehaviorTreeNode) (st : e_status)
      (tr : List Nat) (store' : List IBehaviorTreeNode),
      fallbackGo eval store cs = some (st, tr, store') →
      (st = e_status.FAILURE ↔
        ∀ c ∈ cs, ∃ t s2, eval store c = some (e_status.FAILURE, t, s2)) := by
  intro cs
  induction cs with
  | nil =>
    intro store st tr store' h
    simp only [fallbackGo, Option.some.injEq, Prod.mk.injEq] at h
    obtain ⟨rfl, rfl, rfl⟩ := h
    simp
  | cons c rest ih =>
    intro store st tr store' h
    simp only [fallbackGo] at h
    split at h
    · exact Option.noConfusion h
    · rename_i st1 t1 s1 h1
      have hs1 : s1 = store := hpres store c st1 t1 s1 h1
      rw [hs1] at h1 h
      split at h
      · rename_i hsucc
        subst hsucc
        simp only [Option.some.injEq, Prod.mk.injEq] at h
        obtain ⟨rfl, rfl, rfl⟩ := h
        constructor
        · intro h'
          exact absurd h' (by decide)
        · intro hall
          obtain ⟨t, s2, hc⟩ := hall c (List.mem_cons_self c rest)
          rw [h1] at hc
          simp at hc
      · rename_i hnsucc
        have hfail : st1 = e_status.FAILURE := by
          rcases hterm store c st1 t1 store h1 with h' | h'
          · exact absurd h' hnsucc
          · exact h'
        subst hfail
        split at h
        · exact Option.noConfusion h
        · rename_i st2 t2 s2 h2
          simp only [Option.some.injEq, Prod.mk.injEq] at h
          obtain ⟨rfl, rfl, rfl⟩ := h
          have hiff := ih store st2 t2 s2 h2
          constructor
          · intro hst2 c' hc'
            rcases List.mem_cons.mp hc' with rfl | hmem
            · exact ⟨t1, store, h1⟩
            · exact (hiff.mp hst2) c' hmem
          · intro hall
            exact hiff.mpr (fun c' hc' => hall c' (List.mem_cons_of_mem c hc'))

theorem fallbackGo_failure_trace (eval : List IBehaviorTreeNode → Nat → Option UpdResult)
    (hpres : PreservesStore eval) (hterm : TerminalStatus eval) :
    ∀ (cs : List Nat) (store : List IBehaviorTreeNode) (tr : List Nat)
      (store' : List IBehaviorTreeNode),
      fallbackGo eval store cs = some (e_status.FAILURE, tr, store') →
      EvalAll eval store e_status.FAILURE cs tr := by
  intro cs
  induction cs with
  | nil =>
    intro store tr store' h
    simp only [fallbackGo, Option.some.injEq, Prod.mk.injEq] at h
    obtain ⟨-, rfl, rfl⟩ := h
    exact EvalAll.nil
  | cons c rest ih =>
    intro store tr store' h
    simp only [fallbackGo] at h
    split at h
    · exact Option.noConfusion h
    · rename_i st1 t1 s1 h1
      have hs1 : s1 = store := hpres store c st1 t1 s1 h1
      rw [hs1] at h1 h
      split at h
      · simp only [Option.some.injEq, Prod.mk.injEq] at h
        exact absurd h.1 (by decide)
      · rename_i hnsucc
        have hfail : st1 = e_status.FAILURE := by
          rcases hterm store c st1 t1 store h1 with h' | h'
          · exact absurd h' hnsucc
          · exact h'
        subst hfail
        split at h
        · exact Option.noConfusion h
        · rename_i st2 t2 s2 h2
          simp only [Option.some.injEq, Prod.mk.injEq] at h
          obtain ⟨hst2, rfl, rfl⟩ := h
          subst hst2
          exact EvalAll.cons h1 (ih store t2 s2 h2)

theorem fallbackGo_shortcircuit (eval : List IBehaviorTreeNode → Nat → Option UpdResult)
    (hpres : PreservesStore eval) :
    ∀ (cs1 : List Nat) (c : Nat) (cs2 : List Nat) (store : List IBehaviorTreeNode)
      (tc : List Nat) (s2 : List IBehaviorTreeNode),
      (∀ c' ∈ cs1, ∃ t s3, eval store c' = some (e_status.FAILURE, t, s3)) →
      eval store c = some (e_status.SUCCESS, tc, s2) →
      ∃ pre, fallbackGo eval store (cs1 ++ c :: cs2) =
          some (e_status.SUCCESS, pre ++ tc, store) ∧
        EvalAll eval store e_status.FAILURE cs1 pre := by
  intro cs1
  induction cs1 with
  | nil =>
    intro c cs2 store tc s2 _ hc
    have hs2 : s2 = store := hpres store c _ _ _ hc
    rw [hs2] at hc
    refine ⟨[], ?_, EvalAll.nil⟩
    simp [fallbackGo, hc]
  | cons c' cs1' ih =>
    intro c cs2 store tc s2 hall hc
    obtain ⟨t, s3, hc'⟩ := hall c' (List.mem_cons_self c' cs1')
    have hs3 : s3 = store := hpres store c' _ _ _ hc'
    rw [hs3] at hc'
    obtain ⟨pre, hseq, hev⟩ :=
      ih c cs2 store tc s2 (fun x hx => hall x (List.mem_cons_of_mem c' hx)) hc
    refine ⟨t ++ pre, ?_, EvalAll.cons hc' hev⟩
    rw [List.cons_append]
    simp [fallbackGo, hc', hseq]

/-!
Claim theorems.
-/

/-- C1: for every Sequence node S with children c1..cn, evaluating S
(`Sequence::update`) returns SUCCESS if and only if every child evaluates to
SUCCESS; evaluation invokes the children strictly in list order (the trace of
a successful evaluation is the node followed by the children's traces in
order), and the first child that returns FAILURE makes S return FAILURE
immediately: the returned trace ends with that child's trace, so no child
after it is invoked. -/
theorem sequence_update_correct
    (fuel : Nat) (store : List IBehaviorTreeNode) (id : Nat) (dt : Float)
    (n : IBehaviorTreeNode) (st : e_status) (tr : List Nat)
    (store' : List IBehaviorTreeNode)
    (hn : store[id]? = some n) (hcls : n.cls = NodeClass.Sequence)
    (hup : update (fuel + 1) store id dt = some (st, tr, store')) :
    (st = e_status.SUCCESS ↔
      ∀ c ∈ n.m_children,
        ∃ t s2, update fuel store c dt = some (e_status.SUCCESS, t, s2))
    ∧ (st = e_status.SUCCESS →
        ∃ ts, tr = id :: ts ∧
          EvalAll (fun s c => update fuel s c dt) store e_status.SUCCESS
            n.m_children ts)
    ∧ (∀ cs1 c cs2 tc s2, n.m_children = cs1 ++ c :: cs2 →
        (∀ c' ∈ cs1,
          ∃ t s3, update fuel store c' dt = some (e_status.SUCCESS, t, s3)) →
        update fuel store c dt = some (e_status.FAILURE, tc, s2) →
        st = e_status.FAILURE ∧
          ∃ pre, tr = id :: (pre ++ tc) ∧
            EvalAll (fun s c => update fuel s c dt) store e_status.SUCCESS
              cs1 pre) := by
  have hpres : PreservesStore (fun s c => update fuel s c dt) :=
    fun s c st1 t1 s1 h1 => update_store_eq fuel s c dt st1 t1 s1 h1
  have hterm : TerminalStatus (fun s c => update fuel s c dt) :=
    fun s c st1 t1 s1 h1 => update_terminal fuel s c dt st1 t1 s1 h1
  simp only [update, hn, hcls] at hup
  split at hup
  · exact Option.noConfusion hup
  · rename_i st0 tr0 s0 hgo
    simp only [Option.some.injEq, Prod.mk.injEq] at hup
    obtain ⟨rfl, rfl, rfl⟩ := hup
    refine ⟨?_, ?_, ?_⟩
    · exact sequenceGo_success_iff _ hpres hterm n.m_children store st0 tr0 s0 hgo
    · intro hs
      subst hs
      exact ⟨tr0, rfl,
        sequenceGo_success_trace _ hpres hterm n.m_children store tr0 s0 hgo⟩
    · intro cs1 c cs2 tc s2 hsplit hall hfail
      obtain ⟨pre, hseq, hev⟩ :=
        sequenceGo_shortcircuit _ hpres cs1 c cs2 store tc s2 hall hfail
      rw [hsplit] at hgo
      rw [hgo] at hseq
      simp only [Option.some.injEq, Prod.mk.injEq] at hseq
      obtain ⟨rfl, rfl, rfl⟩ := hseq
      exact ⟨rfl, pre, rfl, hev⟩

/-- C2: for every Fallback node F with children c1..cn, evaluating F
(`Fallback::update`) invokes the children strictly in list order; the first
child that returns SUCCESS makes F return SUCCESS immediately (the returned
trace ends with that child's trace, so no child after it is invoked), and F
returns FAILURE if and only if all children evaluate to FAILURE. -/
theorem fallback_update_correct
    (fuel : Nat) (store : List IBehaviorTreeNode) (id : Nat) (dt : Float)
    (n : IBehaviorTreeNode) (st : e_status) (tr : List Nat)
    (store' : List IBehaviorTreeNode)
    (hn : store[id]? = some n) (hcls : n.cls = NodeClass.Fallback)
    (hup : update (fuel + 1) store id dt = some (st, tr, store')) :
    (st = e_status.FAILURE ↔
      ∀ c ∈ n.m_children,
        ∃ t s2, update fuel store c dt = some (e_status.FAILURE, t, s2))
    ∧ (st = e_status.FAILURE →
        ∃ ts, tr = id :: ts ∧
          EvalAll (fun s c => update fuel s c dt) store e_status.FAILURE
            n.m_children ts)
    ∧ (∀ cs1 c cs2 tc s2, n.m_children = cs1 ++ c :: cs2 →
        (∀ c' ∈ cs1,
          ∃ t s3, update fuel store c' dt = some (e_status.FAILURE, t, s3)) →
        update fuel store c dt = some (e_status.SUCCESS, tc, s2) →
        st = e_status.SUCCESS ∧
          ∃ pre, tr = id :: (pre ++ tc) ∧
            EvalAll (fun s c => update fuel s c dt) store e_status.FAILURE
              cs1 pre) := by
  have hpres : PreservesStore (fun s c => update fuel s c dt) :=
    fun s c st1 t1 s1 h1 => update_store_eq fuel s c dt st1 t1 s1 h1
  have hterm : TerminalStatus (fun s c => update fuel s c dt) :=
    fun s c st1 t1 s1 h1 => update_terminal fuel s c dt st1 t1 s1 h1
  simp only [update, hn, hcls] at hup
  split at hup
  · exact Option.noConfusion hup
  · rename_i st0 tr0 s0 hgo
    simp only [Option.some.injEq, Prod.mk.injEq] at hup
    obtain ⟨rfl, rfl, rfl⟩ := hup
    refine ⟨?_, ?_, ?_⟩
    · exact fallbackGo_failure_iff _ hpres hterm n.m_children store st0 tr0 s0 hgo
    · intro hs
      subst hs
      exact ⟨tr0, rfl,
        fallbackGo_failure_trace _ hpres hterm n.m_children store tr0 s0 hgo⟩
    · intro cs1 c cs2 tc s2 hsplit hall hsucc
      obtain ⟨pre, hseq, hev⟩ :=
        fallbackGo_shortcircuit _ hpres cs1 c cs2 store tc s2 hall hsucc
      rw [hsplit] at hgo
      rw [hgo] at hseq
      simp only [Option.some.injEq, Prod.mk.injEq] at hseq
      obtain ⟨rfl, rfl, rfl⟩ := hseq
      exact ⟨rfl, pre, rfl, hev⟩

/-- Witness for C1: on the concrete Sequence [Uno, Esto, Dos], evaluation
returns FAILURE with trace [0, 1, 2] — Uno invoked first and successful,
Esto invoked and failing, Dos never invoked. -/
theorem sequence_update_correct_witness :
    ∃ pre, ([0, 1, 2] : List Nat) = 0 :: (pre ++ [2]) ∧
      EvalAll (fun s c => update 1 s c 0) seqWitnessStore e_status.SUCCESS
        [1] pre := by
  have h := sequence_update_correct 1 seqWitnessStore 0 0
    ((((mkNode NodeClass.Sequence).addChildren 1).addChildren 2).addChildren 3)
    e_status.FAILURE [0, 1, 2] seqWitnessStore rfl rfl rfl
  exact (h.2.2 [1] 2 [3] [2] seqWitnessStore rfl
    (by
      intro c' hc'
      simp only [List.mem_singleton] at hc'
      subst hc'
      exact ⟨[1], seqWitnessStore, rfl⟩) rfl).2

/-- Witness for C2: on the concrete Fallback [Esto, Uno, Dos], evaluation
returns SUCCESS with trace [0, 1, 2] — Esto invoked first and failing,
Uno invoked and successful, Dos never invoked. -/
theorem fallback_update_correct_witness :
    ∃ pre, ([0, 1, 2] : List Nat) = 0 :: (pre ++ [2]) ∧
      EvalAll (fun s c => update 1 s c 0) fbWitnessStore e_status.FAILURE
        [1] pre := by
  have h := fallback_update_correct 1 fbWitnessStore 0 0
    ((((mkNode NodeClass.Fallback).addChildren 1).addChildren 2).addChildren 3)
    e_status.SUCCESS [0, 1, 2] fbWitnessStore rfl rfl rfl
  exact (h.2.2 [1] 2 [3] [2] fbWitnessStore rfl
    (by
      intro c' hc'
      simp only [List.mem_singleton] at hc'
      subst hc'
      exact ⟨[1], fbWitnessStore, rfl⟩) rfl).2

theorem storeModify_getElem_self :
    ∀ (l : List IBehaviorTreeNode) (i : Nat)
      (f : IBehaviorTreeNode → IBehaviorTreeNode),
      (storeModify l i f)[i]? = (l[i]?).map f := by
  intro l
  induction l with
  | nil => intro i f; cases i <;> simp [storeModify]
  | cons n rest ih =>
    intro i f
    cases i with
    | zero => simp [storeModify]
    | succ j => simp [storeModify, ih j f]

theorem storeModify_getElem_ne :
    ∀ (l : List IBehaviorTreeNode) (i j : Nat)
      (f : IBehaviorTreeNode → IBehaviorTreeNode), j ≠ i →
      (storeModify l i f)[j]? = l[j]? := by
  intro l
  induction l with
  | nil => intro i j f _; cases i <;> simp [storeModify]
  | cons n rest ih =>
    intro i j f hne
    cases i with
    | zero =>
      cases j with
      | zero => exact absurd rfl hne
      | succ j' => simp [storeModify]
    | succ i' =>
      cases j with
      | zero => simp [storeModify]
      | succ j' =>
        simp only [storeModify, List.getElem?_cons_succ]
        exact ih i' j' f (fun h => hne (by rw [h]))

theorem storeModify_mem :
    ∀ (l : List IBehaviorTreeNode) (i : Nat)
      (f : IBehaviorTreeNode → IBehaviorTreeNode) (x : IBehaviorTreeNode),
      x ∈ storeModify l i f → x ∈ l ∨ ∃ n, n ∈ l ∧ x = f n := by
  intro l
  induction l with
  | nil => intro i f x hx; cases i <;> simp [storeModify] at hx
  | cons n rest ih =>
    intro i f x hx
    cases i with
    | zero =>
      simp only [storeModify, List.mem_cons] at hx
      rcases hx with rfl | hx
      · exact Or.inr ⟨n, List.mem_cons_self n rest, rfl⟩
      · exact Or.inl (List.mem_cons_of_mem n hx)
    | succ j =>
      simp only [storeModify, List.mem_cons] at hx
      rcases hx with rfl | hx
      · exact Or.inl (List.mem_cons_self x rest)
      · rcases ih j f x hx with h | ⟨m, hm, rfl⟩
        · exact Or.inl (List.mem_cons_of_mem n h)
        · exact Or.inr ⟨m, List.mem_cons_of_mem n hm, rfl⟩

/-- C3 (code bug): `BehaviorTree::run` performs no check of `m_root`; ticking
a default-constructed tree before `setRoot` dereferences the never-assigned
root pointer.  In the model the evaluation of such a tree is simply
undefined (`none`): no status is produced, and there is no assertion or
reported fatal error on this path. -/
theorem run_before_setRoot_undefined (fuel : Nat) (dt : Float) :
    freshTree.run fuel dt = none := rfl

/-- C4: evaluating a Sequence node with an empty child list returns SUCCESS,
and evaluating a Fallback node with an empty child list returns FAILURE
(with only the node itself invoked and the store untouched). -/
theorem empty_children_update
    (fuel : Nat) (store : List IBehaviorTreeNode) (id : Nat) (dt : Float)
    (n : IBehaviorTreeNode) (hn : store[id]? = some n)
    (hempty : n.m_children = []) :
    (n.cls = NodeClass.Sequence →
      update (fuel + 1) store id dt = some (e_status.SUCCESS, [id], store))
    ∧ (n.cls = NodeClass.Fallback →
      update (fuel + 1) store id dt = some (e_status.FAILURE, [id], store)) := by
  constructor
  · intro hcls
    simp [update, hn, hcls, hempty, sequenceGo]
  · intro hcls
    simp [update, hn, hcls, hempty, fallbackGo]

/-- Witness for C4 at singleton stores holding one childless Sequence and
one childless Fallback. -/
theorem empty_children_update_witness :
    update 1 [mkNode NodeClass.Sequence] 0 0 =
      some (e_status.SUCCESS, [0], [mkNode NodeClass.Sequence])
    ∧ update 1 [mkNode NodeClass.Fallback] 0 0 =
      some (e_status.FAILURE, [0], [mkNode NodeClass.Fallback]) :=
  ⟨(empty_children_update 0 [mkNode NodeClass.Sequence] 0 0
      (mkNode NodeClass.Sequence) rfl rfl).1 rfl,
   (empty_children_update 0 [mkNode NodeClass.Fallback] 0 0
      (mkNode NodeClass.Fallback) rfl rfl).2 rfl⟩

/-- C5: one tick of the tree built in `main` (Fallback (1) over Esto (2),
Aquello (3) and a Sequence (0) over Uno (4), Dos (5), Tres (6)) returns
SUCCESS at the root, with invocation order fallback, esto, aquello,
sequence, uno, dos, tres; esto and aquello each report FAILURE, and the
sequence reports SUCCESS after invoking its three children in order. -/
theorem main_scenario (dt : Float) :
    mainTree.run 3 dt =
      some (e_status.SUCCESS, [1, 2, 3, 0, 4, 5, 6], mainTree.m_nodes)
    ∧ update 2 mainTree.m_nodes 2 dt =
      some (e_status.FAILURE, [2], mainTree.m_nodes)
    ∧ update 2 mainTree.m_nodes 3 dt =
      some (e_status.FAILURE, [3], mainTree.m_nodes)
    ∧ update 2 mainTree.m_nodes 0 dt =
      some (e_status.SUCCESS, [0, 4, 5, 6], mainTree.m_nodes) :=
  ⟨rfl, rfl, rfl, rfl⟩

/-- C6: evaluation is deterministic and leaves the tree unchanged, so a
second tick against the tree state left by a first tick, with the same
deltaTime, produces the identical outcome, invocation trace, and post-state
— and likewise re-evaluating any single node after its own evaluation
produces the identical result. -/
theorem tick_deterministic (bt : BehaviorTree) (fuel : Nat) (dt : Float)
    (st : e_status) (tr : List Nat) (store' : List IBehaviorTreeNode)
    (h : bt.run fuel dt = some (st, tr, store')) :
    store' = bt.m_nodes
    ∧ BehaviorTree.run { bt with m_nodes := store' } fuel dt =
        some (st, tr, store')
    ∧ ∀ id st2 tr2 s2, update fuel bt.m_nodes id dt = some (st2, tr2, s2) →
        update fuel s2 id dt = some (st2, tr2, s2) := by
  simp only [BehaviorTree.run] at h
  split at h
  · exact Option.noConfusion h
  · rename_i r hr
    have hpres := update_store_eq fuel bt.m_nodes r dt st tr store' h
    subst hpres
    refine ⟨rfl, ?_, ?_⟩
    · simp only [BehaviorTree.run, hr]
      exact h
    · intro id st2 tr2 s2 h2
      have hs2 := update_store_eq fuel bt.m_nodes id dt st2 tr2 s2 h2
      rw [hs2] at h2 ⊢
      exact h2

/-- Witness for C6: a second tick of the main tree against the store left by
the first tick returns the identical result. -/
theorem tick_deterministic_witness :
    BehaviorTree.run { mainTree with m_nodes := mainTree.m_nodes } 3 0 =
      some (e_status.SUCCESS, [1, 2, 3, 0, 4, 5, 6], mainTree.m_nodes) :=
  (tick_deterministic mainTree 3 0 e_status.SUCCESS [1, 2, 3, 0, 4, 5, 6]
    mainTree.m_nodes rfl).2.1

/-- C7: evaluating any node leaves the tree structure unchanged: the
post-state store equals the pre-state store, so every node keeps its node
type, parent reference and ordered child list; in particular no leaf
mutates sibling or ancestor nodes. -/
theorem update_preserves_tree
    (fuel : Nat) (store : List IBehaviorTreeNode) (id : Nat) (dt : Float)
    (st : e_status) (tr : List Nat) (store' : List IBehaviorTreeNode)
    (h : update fuel store id dt = some (st, tr, store')) :
    store' = store
    ∧ ∀ (i : Nat) (n : IBehaviorTreeNode), store[i]? = some n →
        ∃ n' : IBehaviorTreeNode, store'[i]? = some n' ∧
          n'.getNodeType = n.getNodeType ∧
          n'.getParent = n.getParent ∧ n'.getChildren = n.getChildren := by
  have hs := update_store_eq fuel store id dt st tr store' h
  subst hs
  exact ⟨rfl, fun i n hn => ⟨n, hn, rfl, rfl, rfl⟩⟩

/-- Witness for C7: after one tick of the main tree, the leaf Esto (index 2)
still has its original type, parent and child list. -/
theorem update_preserves_tree_witness :
    ∃ n', mainTree.m_nodes[2]? = some n' ∧
      n'.getNodeType = (mkNode NodeClass.Esto).getNodeType ∧
      n'.getParent = (mkNode NodeClass.Esto).getParent ∧
      n'.getChildren = (mkNode NodeClass.Esto).getChildren :=
  (update_preserves_tree 3 mainTree.m_nodes 1 0 e_status.SUCCESS
    [1, 2, 3, 0, 4, 5, 6] mainTree.m_nodes rfl).2 2 (mkNode NodeClass.Esto) rfl

/-- C8: `addChildren` appends the new child reference at the end of the
node's child list and touches nothing else; through a tree pointer it
rewrites only the targeted node; and no operation (`create`, `setRoot`,
`update`) ever reorders or removes children. -/
theorem children_append_only :
    (∀ (n : IBehaviorTreeNode) (c : Nat),
      (n.addChildren c).m_children = n.m_children ++ [c] ∧
      (n.addChildren c).m_type = n.m_type ∧
      (n.addChildren c).m_parent = n.m_parent)
    ∧ (∀ (bt : BehaviorTree) (p c : Nat),
        (addChildAt bt p c).m_nodes[p]? =
          (bt.m_nodes[p]?).map (fun n => n.addChildren c)
        ∧ ∀ i : Nat, i ≠ p →
            (addChildAt bt p c).m_nodes[i]? = bt.m_nodes[i]?)
    ∧ (∀ (bt : BehaviorTree) (cl : NodeClass) (i : Nat),
        i < bt.m_nodes.length →
        ((bt.create cl).1.m_nodes)[i]? = bt.m_nodes[i]?)
    ∧ (∀ cl : NodeClass, (mkNode cl).m_children = [])
    ∧ (∀ (bt : BehaviorTree) (r : Nat), (bt.setRoot r).m_nodes = bt.m_nodes)
    ∧ (∀ (fuel : Nat) (store : List IBehaviorTreeNode) (id : Nat) (dt : Float)
        (st : e_status) (tr : List Nat) (store' : List IBehaviorTreeNode),
        update fuel store id dt = some (st, tr, store') → store' = store) := by
  refine ⟨fun n c => ⟨rfl, rfl, rfl⟩, fun bt p c => ⟨?_, ?_⟩, ?_,
    fun cl => rfl, fun bt r => rfl, update_store_eq⟩
  · exact storeModify_getElem_self bt.m_nodes p _
  · intro i hi
    exact storeModify_getElem_ne bt.m_nodes p i _ hi
  · intro bt cl i hi
    simp only [BehaviorTree.create]
    rw [List.getElem?_append, if_pos hi]

/-- Witness for C8 on concrete nodes and the main tree. -/
theorem children_append_only_witness :
    ((mkNode NodeClass.Fallback).addChildren 2).m_children =
      (mkNode NodeClass.Fallback).m_children ++ [2]
    ∧ (addChildAt mainTree 1 9).m_nodes[0]? = mainTree.m_nodes[0]?
    ∧ ((mainTree.create NodeClass.Uno).1.m_nodes)[1]? = mainTree.m_nodes[1]?
    ∧ mainTree.m_nodes = mainTree.m_nodes :=
  ⟨(children_append_only.1 (mkNode NodeClass.Fallback) 2).1,
   (children_append_only.2.1 mainTree 1 9).2 0 (by decide),
   children_append_only.2.2.1 mainTree NodeClass.Uno 1 (by decide),
   children_append_only.2.2.2.2.2 3 mainTree.m_nodes 1 0 e_status.SUCCESS
     [1, 2, 3, 0, 4, 5, 6] mainTree.m_nodes rfl⟩

/-- C9: the parent back-reference is never populated: the base constructor
sets it to nullptr, and no operation — `addChildren` (on either end of the
edge), `create`, `setRoot`, or `update` — ever assigns it, so `getParent`
returns the null reference for every node of every tree built from these
operations. -/
theorem parent_never_assigned :
    (∀ cl : NodeClass, (mkNode cl).getParent = none)
    ∧ (∀ (n : IBehaviorTreeNode) (c : Nat),
        (n.addChildren c).getParent = n.getParent)
    ∧ AllParentsNone freshTree.m_nodes
    ∧ (∀ (bt : BehaviorTree) (cl : NodeClass), AllParentsNone bt.m_nodes →
        AllParentsNone (bt.create cl).1.m_nodes)
    ∧ (∀ (bt : BehaviorTree) (p c : Nat), AllParentsNone bt.m_nodes →
        AllParentsNone (addChildAt bt p c).m_nodes)
    ∧ (∀ (bt : BehaviorTree) (r : Nat), AllParentsNone bt.m_nodes →
        AllParentsNone (bt.setRoot r).m_nodes)
    ∧ (∀ (fuel : Nat) (store : List IBehaviorTreeNode) (id : Nat) (dt : Float)
        (st : e_status) (tr : List Nat) (store' : List IBehaviorTreeNode),
        update fuel store id dt = some (st, tr, store') →
        AllParentsNone store → AllParentsNone store')
    ∧ (∀ (store : List IBehaviorTreeNode) (i : Nat) (n : IBehaviorTreeNode),
        AllParentsNone store → store[i]? = some n → n.getParent = none) := by
  refine ⟨fun cl => rfl, fun n c => rfl,
    fun n hn => absurd hn (List.not_mem_nil n), ?_, ?_, ?_, ?_, ?_⟩
  · intro bt cl hall n hn
    simp only [BehaviorTree.create] at hn
    rcases List.mem_append.mp hn with h | h
    · exact hall n h
    · rcases List.mem_singleton.mp h with rfl
      rfl
  · intro bt p c hall n hn
    simp only [addChildAt] at hn
    rcases storeModify_mem bt.m_nodes p _ n hn with h | ⟨m, hm, rfl⟩
    · exact hall n h
    · exact hall m hm
  · intro bt r hall
    exact hall
  · intro fuel store id dt st tr store' h hall
    rw [update_store_eq fuel store id dt st tr store' h]
    exact hall
  · intro store i n hall hn
    exact hall n (List.getElem?_mem hn)

/-- Witness for C9: a tree built by one `create` from a fresh tree still has
every parent reference null. -/
theorem parent_never_assigned_witness :
    AllParentsNone (freshTree.create NodeClass.Esto).1.m_nodes :=
  parent_never_assigned.2.2.2.1 freshTree NodeClass.Esto
    (fun n hn => absurd hn (List.not_mem_nil n))

/-- C10: every defined evaluation result is SUCCESS or FAILURE; the UNKNOWN
status value is never returned by `update` on any tree built from the
composites and the example leaves. -/
theorem update_no_unknown
    (fuel : Nat) (store : List IBehaviorTreeNode) (id : Nat) (dt : Float)
    (st : e_status) (tr : List Nat) (store' : List IBehaviorTreeNode)
    (h : update fuel store id dt = some (st, tr, store')) :
    st ≠ e_status.UNKNOWN ∧
      (st = e_status.SUCCESS ∨ st = e_status.FAILURE) := by
  have hterm := update_terminal fuel store id dt st tr store' h
  refine ⟨?_, hterm⟩
  rcases hterm with h' | h' <;> simp [h']

/-- Witness for C10 at the root of the main tree. -/
theorem update_no_unknown_witness :
    e_status.SUCCESS ≠ e_status.UNKNOWN ∧
      (e_status.SUCCESS = e_status.SUCCESS ∨
        e_status.SUCCESS = e_status.FAILURE) :=
  update_no_unknown 3 mainTree.m_nodes 1 0 e_status.SUCCESS
    [1, 2, 3, 0, 4, 5, 6] mainTree.m_nodes rfl
